import Mathlib

/-!
Verification of the card ranking/thresholding engine and the duplicate-detection
engine of the epub-to-anki pipeline, embedded shallowly from
`src/epub_to_anki/models.py`, `src/epub_to_anki/ranker/card_ranker.py` and
`src/epub_to_anki/deduplicator.py`.

Modelling conventions:
- Python `float` arithmetic on scores is modelled by exact rationals (all scores
  are small rationals of the form k/3, far from any binary-float rounding
  boundary, so the two agree on every comparison and on rounding to one
  decimal).
- Python lists are Lean `List`s; in-place mutation of `Card.status` is modelled
  by returning the updated list/structure.
- Python's stable `sorted` is modelled by `List.mergeSort`, which is also a
  stable sort; a stable sort for a fixed total preorder is unique, so the two
  agree elementwise.
- Python `int` is modelled by `ℤ` (or `ℕ` for values that are manifestly
  non-negative counters or lengths in the source).
-/

/-- Embedding of `models.CardFormat`: QA or Cloze. -/
inductive CardFormat where
  | QA : CardFormat
  | CLOZE : CardFormat
deriving DecidableEq, Repr

/-- Embedding of `models.CardStatus`: whether a card made the cut. -/
inductive CardStatus where
  | INCLUDED : CardStatus
  | EXCLUDED : CardStatus
deriving DecidableEq, Repr

/-- Embedding of `models.Card`, restricted to the fields the ranker and the
deduplicator read or write (`id`, `format`, the content fields, `importance`,
`difficulty`, `source_chapter_index`, `status`).  Optional content fields are
`Option String` (Python `None` becomes `none`). -/
structure Card where
  id : String
  format : CardFormat
  question : Option String
  answer : Option String
  cloze_text : Option String
  importance : ℤ
  difficulty : ℤ
  source_chapter_index : ℤ
  status : CardStatus
deriving DecidableEq, Repr

/-- Embedding of `models.Card.compute_score`:
`(self.importance * 2 + self.difficulty) / 3` (true division, hence `ℚ`). -/
def Card.compute_score (c : Card) : ℚ :=
  ((c.importance * 2 + c.difficulty : ℤ) : ℚ) / 3

/-- Embedding of `card_ranker.compute_card_score`:
`(card.importance * 2 + card.difficulty) / 3`. -/
def compute_card_score (card : Card) : ℚ :=
  ((card.importance * 2 + card.difficulty : ℤ) : ℚ) / 3

/-- Boolean comparator realising Python's
`sorted(cards, key=compute_card_score, reverse=True)`: card `a` may come before
card `b` iff `score b ≤ score a` (stable, descending). -/
def rankLe (a b : Card) : Bool :=
  decide (compute_card_score b ≤ compute_card_score a)

/-- Embedding of `card_ranker.rank_cards`: stable sort by score descending. -/
def rank_cards (cards : List Card) : List Card :=
  cards.mergeSort rankLe

/-- Embedding of `card_ranker.apply_threshold`: the loop
`for card in cards: card.status = INCLUDED if score >= threshold else EXCLUDED`,
rendered functionally (the returned list is the caller's list, statuses
overwritten). -/
def apply_threshold : List Card → ℚ → List Card
  | [], _ => []
  | card :: rest, threshold =>
    (if threshold ≤ compute_card_score card then
      { card with status := CardStatus.INCLUDED }
     else
      { card with status := CardStatus.EXCLUDED }) :: apply_threshold rest threshold

/-- Comparator for sorting `enumerate`d cards, used to model `apply_top_n`'s
in-place mutation through the ranked permutation: entries keep their original
position as `.1` and are ordered by score of `.2` descending. -/
def rankEnumLe (a b : ℕ × Card) : Bool :=
  decide (compute_card_score b.2 ≤ compute_card_score a.2)

/-- The ranked list of (original position, card) pairs used by `apply_top_n`. -/
def rankedEnum (cards : List Card) : List (ℕ × Card) :=
  cards.enum.mergeSort rankEnumLe

/-- Embedding of `card_ranker.apply_top_n`: rank the cards, set
`status = INCLUDED` on the first `n` of the ranking and `EXCLUDED` on the rest,
returning the (mutated) original list.  Python object identity is modelled by
original positions: position `p` is INCLUDED iff `p` occurs among the first `n`
positions of the stable score-descending ranking. -/
def apply_top_n (cards : List Card) (n : ℕ) : List Card :=
  cards.enum.map (fun pc =>
    if pc.1 ∈ ((rankedEnum cards).take n).map Prod.fst then
      { pc.2 with status := CardStatus.INCLUDED }
    else { pc.2 with status := CardStatus.EXCLUDED })

/-- Counting loop of `CardRanker.preview_threshold`: returns
(number with score ≥ threshold, number with score < threshold). -/
def previewCounts : List Card → ℚ → ℕ × ℕ
  | [], _ => (0, 0)
  | card :: rest, threshold =>
    let p := previewCounts rest threshold
    if threshold ≤ compute_card_score card then (p.1 + 1, p.2) else (p.1, p.2 + 1)

/-- Embedding of the dict returned by `CardRanker.preview_threshold`. -/
structure PreviewResult where
  threshold : ℚ
  would_include : ℕ
  would_exclude : ℕ
  total : ℕ
deriving DecidableEq, Repr

/-- Embedding of `CardRanker.preview_threshold`: read-only count of what a
threshold would include/exclude. -/
def preview_threshold (cards : List Card) (threshold : ℚ) : PreviewResult :=
  ⟨threshold, (previewCounts cards threshold).1, (previewCounts cards threshold).2,
    cards.length⟩

/-- Python's `round` to an integer: round half to even (banker's rounding),
on exact rationals. -/
def pyRoundHalfEven (q : ℚ) : ℤ :=
  let f := ⌊q⌋
  if q - f < 1 / 2 then f
  else if (1 : ℚ) / 2 < q - f then f + 1
  else if f % 2 = 0 then f else f + 1

/-- Python's `round(x, 1)`: round to one decimal digit, half to even. -/
def pyRound1 (q : ℚ) : ℚ :=
  (pyRoundHalfEven (10 * q) : ℚ) / 10

/-- Comparator realising Python's `scores.sort()` (ascending, stable; on plain
rationals stability is invisible). -/
def scoreAscLe (a b : ℚ) : Bool :=
  decide (a ≤ b)

/-- The sorted score list built by `CardRanker.get_score_distribution`:
`scores = [compute_card_score(c) for c in cards]; scores.sort()`. -/
def sortedScores (cards : List Card) : List ℚ :=
  (cards.map compute_card_score).mergeSort scoreAscLe

/-- Python's builtin `min` over a non-empty list of rationals (`0` supplied for
the impossible empty case, which the source never reaches). -/
def pyListMin : List ℚ → ℚ
  | [] => 0
  | x :: xs => xs.foldl min x

/-- Python's builtin `max` over a non-empty list of rationals. -/
def pyListMax : List ℚ → ℚ
  | [] => 0
  | x :: xs => xs.foldl max x

/-- Embedding of the dict returned by `CardRanker.get_score_distribution`. -/
structure ScoreDistribution where
  min : ℚ
  max : ℚ
  mean : ℚ
  median : ℚ
  total : ℕ
  buckets : List (String × ℕ)
deriving DecidableEq, Repr

/-- Embedding of `CardRanker.get_score_distribution`: min/max/mean/median
(each rounded to one decimal) and the fixed four score buckets; the empty
input returns all-zero numeric fields and empty buckets. -/
def get_score_distribution (cards : List Card) : ScoreDistribution :=
  if cards.isEmpty then ⟨0, 0, 0, 0, 0, []⟩
  else
    let scores := sortedScores cards
    let buckets : List (String × ℕ) :=
      [("1-3 (low)", scores.countP (fun s => decide (s < 4))),
       ("4-5 (medium)", scores.countP (fun s => decide (4 ≤ s ∧ s < 6))),
       ("6-7 (high)", scores.countP (fun s => decide (6 ≤ s ∧ s < 8))),
       ("8-10 (critical)", scores.countP (fun s => decide (8 ≤ s)))]
    let n := scores.length
    let median :=
      if n % 2 = 1 then scores.getD (n / 2) 0
      else (scores.getD (n / 2 - 1) 0 + scores.getD (n / 2) 0) / 2
    ⟨pyRound1 (pyListMin scores), pyRound1 (pyListMax scores),
      pyRound1 (scores.sum / (n : ℚ)), pyRound1 median, n, buckets⟩

/-- Median formula as worded by the spec, applied to an (already score-sorted)
list: the average of the two middle elements when the count is even, the middle
element when the count is odd. -/
def medianOfSorted (l : List ℚ) : ℚ :=
  if l.length % 2 = 1 then l.getD (l.length / 2) 0
  else (l.getD (l.length / 2 - 1) 0 + l.getD (l.length / 2) 0) / 2

/-- Embedding of `deduplicator.get_card_text`: for QA cards
`f"{card.question or ''} {card.answer or ''}"`, for Cloze cards
`card.cloze_text or ""` (for string fields Python's `x or ''` collapses both
`None` and `""` to `""`, which `Option.getD` matches here). -/
def get_card_text (card : Card) : String :=
  match card.format with
  | CardFormat.QA => (card.question.getD "") ++ " " ++ (card.answer.getD "")
  | CardFormat.CLOZE => card.cloze_text.getD ""

/-- Opening curly brace character, written by code point to keep brace
characters out of literals. -/
def lbrace : Char := Char.ofNat 123

/-- Closing curly brace character. -/
def rbrace : Char := Char.ofNat 125

/-- Scanner for the non-greedy tail of the cloze-marker regex: finds the
earliest closing double brace, returning the captured inner text and the
remainder after the match; fails on a newline (regex `.` does not match
newline) or at end of input. -/
def findClozeClose : List Char → Option (List Char × List Char)
  | [] => none
  | c :: cs =>
    if c = rbrace ∧ cs ≠ [] ∧ cs.headD c = rbrace then
      some ([], cs.tail)
    else if c = Char.ofNat 10 then none
    else (findClozeClose cs).map (fun p => (c :: p.1, p.2))

/-- Matcher for one occurrence of the cloze-marker pattern
(open-brace open-brace, `c`, one or more digits, double colon, non-greedy
inner text, close-brace close-brace) anchored at the head of the input;
returns the captured inner text and the remainder after the match. -/
def matchClozeAt (cs : List Char) : Option (List Char × List Char) :=
  match cs with
  | c1 :: c2 :: c3 :: rest =>
    if c1 = lbrace ∧ c2 = lbrace ∧ c3 = 'c' then
      let ds := rest.takeWhile Char.isDigit
      if ds.isEmpty then none
      else
        match rest.drop ds.length with
        | ':' :: ':' :: body => findClozeClose body
        | _ => none
    else none
  | _ => none

/-- Fuel-driven left-to-right scan performing
`re.sub(r"\x7b\x7bc\d+::(.*?)\x7d\x7d", r"\1", text)`: at each position, if a
cloze marker matches, emit its captured inner text and continue after the
match, otherwise emit the character and move on.  One unit of fuel per input
character is enough because each step consumes at least one character, so the
fuel never actually runs out. -/
def stripClozeFuel : ℕ → List Char → List Char
  | 0, cs => cs
  | _ + 1, [] => []
  | fuel + 1, c :: cs =>
    match matchClozeAt (c :: cs) with
    | some (inner, rest) => inner ++ stripClozeFuel fuel rest
    | none => c :: stripClozeFuel fuel cs

/-- Cloze-marker removal step of `deduplicator.normalize_text`. -/
def stripCloze (cs : List Char) : List Char :=
  stripClozeFuel cs.length cs

/-- Word characters in the sense of the regex class backslash-w (ASCII
approximation: letters, digits, underscore). -/
def isWordChar (c : Char) : Bool :=
  c.isAlphanum || c = '_'

/-- Punctuation-removal step of `normalize_text`
(`re.sub(r"[^\w\s]", "", text)`): keep only word characters and whitespace. -/
def removePunct (cs : List Char) : List Char :=
  cs.filter (fun c => isWordChar c || c.isWhitespace)

/-- Whitespace-collapse step of `normalize_text`
(`re.sub(r"\s+", " ", text)`): every maximal whitespace run becomes a single
space. -/
def collapseRuns : List Char → List Char
  | [] => []
  | [c] => if c.isWhitespace then [' '] else [c]
  | c :: d :: cs =>
    if c.isWhitespace && d.isWhitespace then collapseRuns (d :: cs)
    else (if c.isWhitespace then ' ' else c) :: collapseRuns (d :: cs)

/-- Python's `str.strip()`: drop leading and trailing whitespace. -/
def pyStrip (cs : List Char) : List Char :=
  ((cs.dropWhile Char.isWhitespace).reverse.dropWhile Char.isWhitespace).reverse

/-- Embedding of `deduplicator.normalize_text`: lowercase, unwrap cloze
markers, remove punctuation, collapse whitespace and trim.  Lowercasing is
per-character (ASCII-faithful rendering of `str.lower`). -/
def normalize_text (s : String) : String :=
  String.mk (pyStrip (collapseRuns (removePunct (stripCloze (s.toList.map Char.toLower)))))

/-- Inner loop of the dynamic-programming pass of
`deduplicator.levenshtein_distance`: walking `s2` with the previous row
(`p0` the entry under the current cell, `p1` the entry up-right of it) and
`last` the entry just written to the current row, producing the tail of the
current row. -/
def levInner (c1 : Char) : List Char → List ℕ → ℕ → List ℕ
  | c2 :: s2, p0 :: p1 :: prev, last =>
    let v := min (p1 + 1) (min (last + 1) (p0 + (if c1 = c2 then 0 else 1)))
    v :: levInner c1 s2 (p1 :: prev) v
  | _, _, _ => []

/-- Outer loop of `levenshtein_distance`: one full row per character of `s1`;
`i` is the number of characters of `s1` consumed so far.  Returns the final
row. -/
def levOuter : List Char → List Char → List ℕ → ℕ → List ℕ
  | [], _, prev, _ => prev
  | c1 :: s1, s2, prev, i =>
    levOuter s1 s2 ((i + 1) :: levInner c1 s2 prev (i + 1)) (i + 1)

/-- Body of `levenshtein_distance` after the argument swap: the early return
for an empty `s2`, otherwise the row-by-row dynamic programming starting from
`range(len(s2) + 1)`, returning the last entry of the final row. -/
def levCore (s1 s2 : List Char) : ℕ :=
  if s2.length = 0 then s1.length
  else (levOuter s1 s2 (List.range (s2.length + 1)) 0).getLastD 0

/-- Embedding of `deduplicator.levenshtein_distance`.  The source calls itself
once with swapped arguments when `len(s1) < len(s2)` and the swapped call
cannot swap again, so the recursion is rendered as a direct dispatch to
`levCore`. -/
def levenshtein_distance (s1 s2 : List Char) : ℕ :=
  if s1.length < s2.length then levCore s2 s1 else levCore s1 s2

/-- Embedding of `deduplicator.similarity_ratio`: 1 for two empty strings, 0
when exactly one is empty, otherwise `1 - distance / max(len(s1), len(s2))`. -/
def similarity_ratio (s1 s2 : String) : ℚ :=
  if s1 = "" ∧ s2 = "" then 1
  else if s1 = "" ∨ s2 = "" then 0
  else 1 - (levenshtein_distance s1.toList s2.toList : ℚ) /
    ((max s1.length s2.length : ℕ) : ℚ)

/-- Reference definition of the Levenshtein distance with unit-cost
insertions, deletions and substitutions, stated by the textbook recursion;
this is the formula the spec names, against which the DP implementation is
verified. -/
def levSpec : List Char → List Char → ℕ
  | [], s2 => s2.length
  | s1, [] => s1.length
  | c1 :: s1, c2 :: s2 =>
    min (levSpec s1 (c2 :: s2) + 1)
      (min (levSpec (c1 :: s1) s2 + 1) (levSpec s1 s2 + (if c1 = c2 then 0 else 1)))
termination_by s1 s2 => s1.length + s2.length

/-- Rows of the reference Levenshtein grid: for a fixed first string, the
distances to every extension of `base` by a prefix of the remaining second
string (excluding the `base` column itself).  Used to state the loop
invariant of the dynamic program. -/
def specRowTail (s1 : List Char) : List Char → List Char → List ℕ
  | _, [] => []
  | base, c2 :: rest => levSpec s1 (base ++ [c2]) :: specRowTail s1 (base ++ [c2]) rest

/-- Embedding of `deduplicator.DuplicateGroup`. -/
structure DuplicateGroup where
  primary_card : Card
  duplicates : List Card
  similarity_scores : List ℚ
deriving DecidableEq, Repr

/-- Embedding of the `DuplicateGroup.all_cards` property:
`[primary_card] + duplicates`. -/
def DuplicateGroup.all_cards (g : DuplicateGroup) : List Card :=
  g.primary_card :: g.duplicates

/-- Embedding of the `DuplicateGroup.count` property: `1 + len(duplicates)`. -/
def DuplicateGroup.count (g : DuplicateGroup) : ℕ :=
  1 + g.duplicates.length

/-- Embedding of `deduplicator.DeduplicationResult`.  `unique_cards` is an
`ℤ` because the source computes it by plain integer subtraction. -/
structure DeduplicationResult where
  total_cards : ℕ
  unique_cards : ℤ
  duplicate_groups : List DuplicateGroup
  exact_duplicates : ℕ
  similar_duplicates : ℕ
deriving DecidableEq, Repr

/-- Embedding of the `DeduplicationResult.duplicates_found` property:
`sum(g.count - 1 for g in duplicate_groups)`. -/
def DeduplicationResult.duplicates_found (r : DeduplicationResult) : ℕ :=
  (r.duplicate_groups.map (fun g => g.count - 1)).sum

/-- State carried by the inner scan of `find_duplicates` for one group:
the duplicates and similarity scores collected so far, the updated assigned
set, and the exact/similar tallies contributed by this group. -/
structure InnerScan where
  dups : List Card
  sims : List ℚ
  assigned : List String
  exact : ℕ
  similar : ℕ
deriving DecidableEq, Repr

/-- Inner loop of `CardDeduplicator.find_duplicates`: scan the cards after the
primary `card1` in input order; skip cards already assigned, skip different
chapters when `cross_chapter` is false, take exact text matches first (score
1.0) and otherwise similarity matches at or above the threshold, marking each
match assigned as soon as it is taken. -/
def scanGroup (threshold : ℚ) (cross_chapter : Bool) (card1 : Card) (text1 : String) :
    List (Card × String) → List String → InnerScan
  | [], assigned => ⟨[], [], assigned, 0, 0⟩
  | (card2, text2) :: rest, assigned =>
    if card2.id ∈ assigned then
      scanGroup threshold cross_chapter card1 text1 rest assigned
    else if cross_chapter = false ∧ card1.source_chapter_index ≠ card2.source_chapter_index then
      scanGroup threshold cross_chapter card1 text1 rest assigned
    else if text1 = text2 then
      let s := scanGroup threshold cross_chapter card1 text1 rest (card2.id :: assigned)
      ⟨card2 :: s.dups, 1 :: s.sims, s.assigned, s.exact + 1, s.similar⟩
    else if threshold ≤ similarity_ratio text1 text2 then
      let s := scanGroup threshold cross_chapter card1 text1 rest (card2.id :: assigned)
      ⟨card2 :: s.dups, similarity_ratio text1 text2 :: s.sims, s.assigned, s.exact,
        s.similar + 1⟩
    else
      scanGroup threshold cross_chapter card1 text1 rest assigned

/-- State carried by the outer loop of `find_duplicates`: the groups emitted
so far and the exact/similar tallies. -/
structure DedupScan where
  groups : List DuplicateGroup
  exact : ℕ
  similar : ℕ
deriving DecidableEq, Repr

/-- Outer loop of `CardDeduplicator.find_duplicates`: open a group for each
not-yet-assigned card in input order, collect its matches from the remaining
cards, and keep the group only when it found at least one duplicate. -/
def dedupLoop (threshold : ℚ) (cross_chapter : Bool) :
    List (Card × String) → List String → DedupScan
  | [], _ => ⟨[], 0, 0⟩
  | (card1, text1) :: rest, assigned =>
    if card1.id ∈ assigned then
      dedupLoop threshold cross_chapter rest assigned
    else
      let s := scanGroup threshold cross_chapter card1 text1 rest (card1.id :: assigned)
      let d := dedupLoop threshold cross_chapter rest s.assigned
      if s.dups.isEmpty then ⟨d.groups, s.exact + d.exact, s.similar + d.similar⟩
      else ⟨⟨card1, s.dups, s.sims⟩ :: d.groups, s.exact + d.exact, s.similar + d.similar⟩

/-- Embedding of `CardDeduplicator.find_duplicates` (with the deduplicator's
`similarity_threshold` made an explicit first argument): normalise every
card's text, run the greedy grouping sweep, and package the counters. -/
def find_duplicates (threshold : ℚ) (cards : List Card) (cross_chapter : Bool) :
    DeduplicationResult :=
  if cards.isEmpty then ⟨0, 0, [], 0, 0⟩
  else
    let normalized := cards.map (fun card => (card, normalize_text (get_card_text card)))
    let s := dedupLoop threshold cross_chapter normalized []
    ⟨cards.length, (cards.length : ℤ) - s.exact - s.similar, s.groups, s.exact, s.similar⟩

/-- Python's builtin `max(items, key=k)` over `best :: rest`: keeps the current
best and replaces it only on a strictly larger key, so the first maximum in
iteration order wins. -/
def pyMaxBy (key : Card → ℚ) (best : Card) : List Card → Card
  | [] => best
  | c :: cs => pyMaxBy key (if key best < key c then c else best) cs

/-- Setting a card's status to EXCLUDED. -/
def excludeCard (c : Card) : Card :=
  { c with status := CardStatus.EXCLUDED }

/-- Per-group body of `CardDeduplicator.mark_duplicates_excluded`: returns the
group with statuses updated and the number of cards this group contributed to
`excluded_count`.  An unrecognised strategy matches no branch and leaves the
group untouched, contributing zero. -/
def markGroup (keep_strategy : String) (g : DuplicateGroup) : DuplicateGroup × ℕ :=
  if keep_strategy = "first" then
    (⟨g.primary_card, g.duplicates.map excludeCard, g.similarity_scores⟩,
      g.duplicates.length)
  else if keep_strategy = "highest_score" then
    let best := pyMaxBy (fun c => c.compute_score) g.primary_card g.duplicates
    (⟨if g.primary_card.id ≠ best.id then excludeCard g.primary_card else g.primary_card,
      g.duplicates.map (fun c => if c.id ≠ best.id then excludeCard c else c),
      g.similarity_scores⟩,
      g.all_cards.countP (fun c => decide (c.id ≠ best.id)))
  else if keep_strategy = "highest_importance" then
    let best := pyMaxBy (fun c => (c.importance : ℚ)) g.primary_card g.duplicates
    (⟨if g.primary_card.id ≠ best.id then excludeCard g.primary_card else g.primary_card,
      g.duplicates.map (fun c => if c.id ≠ best.id then excludeCard c else c),
      g.similarity_scores⟩,
      g.all_cards.countP (fun c => decide (c.id ≠ best.id)))
  else (g, 0)

/-- Embedding of `CardDeduplicator.mark_duplicates_excluded`: apply the keep
strategy to every group (mutating card statuses, modelled by returning the
updated result) and return the total number of cards counted as excluded. -/
def mark_duplicates_excluded (result : DeduplicationResult) (keep_strategy : String) :
    DeduplicationResult × ℕ :=
  ({ result with duplicate_groups :=
      (result.duplicate_groups.map (markGroup keep_strategy)).map Prod.fst },
    ((result.duplicate_groups.map (markGroup keep_strategy)).map Prod.snd).sum)

/-- A concrete deduplication result with one non-trivial duplicate group,
used to exhibit the behaviour of `mark_duplicates_excluded` on an
unrecognised keep-strategy. -/
def unknownStrategyExample : DeduplicationResult :=
  ⟨2, 1,
    [⟨⟨"a", CardFormat.QA, some "q", some "ans", none, 8, 5, 0, CardStatus.INCLUDED⟩,
      [⟨"b", CardFormat.QA, some "q", some "ans", none, 3, 3, 0, CardStatus.INCLUDED⟩],
      [1]⟩],
    1, 0⟩

/-- C9: for integer importance and difficulty in [1,10] the score is exactly
(2*importance + difficulty)/3 — identically in the ranker's
`compute_card_score` and the model's `Card.compute_score`, so it is a pure,
reproducible function of the two fields — and it lies in [1.0, 10.0]. -/
theorem compute_card_score_formula_range (c : Card)
    (hi1 : 1 ≤ c.importance) (hi2 : c.importance ≤ 10)
    (hd1 : 1 ≤ c.difficulty) (hd2 : c.difficulty ≤ 10) :
    compute_card_score c = (2 * (c.importance : ℚ) + (c.difficulty : ℚ)) / 3 ∧
    c.compute_score = compute_card_score c ∧
    1 ≤ compute_card_score c ∧ compute_card_score c ≤ 10 := by
  have hi1q : (1 : ℚ) ≤ (c.importance : ℚ) := by exact_mod_cast hi1
  have hi2q : (c.importance : ℚ) ≤ 10 := by exact_mod_cast hi2
  have hd1q : (1 : ℚ) ≤ (c.difficulty : ℚ) := by exact_mod_cast hd1
  have hd2q : (c.difficulty : ℚ) ≤ 10 := by exact_mod_cast hd2
  refine ⟨?_, rfl, ?_, ?_⟩
  · unfold compute_card_score
    push_cast
    ring
  · unfold compute_card_score
    rw [le_div_iff (by norm_num : (0 : ℚ) < 3)]
    push_cast
    linarith
  · unfold compute_card_score
    rw [div_le_iff (by norm_num : (0 : ℚ) < 3)]
    push_cast
    linarith

/-- Witness for C9 at a concrete card with importance 4 and difficulty 7. -/
theorem compute_card_score_formula_range_witness :
    compute_card_score ⟨"w9", CardFormat.QA, some "q", some "ans", none, 4, 7, 0,
        CardStatus.INCLUDED⟩ =
      (2 * ((4 : ℤ) : ℚ) + ((7 : ℤ) : ℚ)) / 3 ∧
    Card.compute_score ⟨"w9", CardFormat.QA, some "q", some "ans", none, 4, 7, 0,
        CardStatus.INCLUDED⟩ =
      compute_card_score ⟨"w9", CardFormat.QA, some "q", some "ans", none, 4, 7, 0,
        CardStatus.INCLUDED⟩ ∧
    1 ≤ compute_card_score ⟨"w9", CardFormat.QA, some "q", some "ans", none, 4, 7, 0,
        CardStatus.INCLUDED⟩ ∧
    compute_card_score ⟨"w9", CardFormat.QA, some "q", some "ans", none, 4, 7, 0,
        CardStatus.INCLUDED⟩ ≤ 10 :=
  compute_card_score_formula_range _ (by decide) (by decide) (by decide) (by decide)

/-- C5: `apply_threshold` rewrites every position of the list, unconditionally
overwriting the status with INCLUDED exactly when the card's score is at or
above the threshold (boundary inclusive) and EXCLUDED otherwise, leaving all
other fields and the order unchanged. -/
theorem apply_threshold_spec (cards : List Card) (t : ℚ) (i : ℕ) :
    (apply_threshold cards t)[i]? = cards[i]?.map (fun c =>
      if t ≤ compute_card_score c then { c with status := CardStatus.INCLUDED }
      else { c with status := CardStatus.EXCLUDED }) := by
  induction cards generalizing i with
  | nil => simp [apply_threshold]
  | cons c cs ih =>
    cases i with
    | zero => simp [apply_threshold]
    | succ n => simpa [apply_threshold] using ih n

/-- Helper: the preview counting loop returns the count of cards at or above
the threshold together with its complement. -/
theorem previewCounts_eq (cards : List Card) (t : ℚ) :
    previewCounts cards t =
      (cards.countP (fun c => decide (t ≤ compute_card_score c)),
       cards.length - cards.countP (fun c => decide (t ≤ compute_card_score c))) := by
  induction cards with
  | nil => simp [previewCounts]
  | cons c cs ih =>
    have hle := List.countP_le_length (p := fun c => decide (t ≤ compute_card_score c))
      (l := cs)
    by_cases h : t ≤ compute_card_score c <;>
      simp [previewCounts, ih, List.countP_cons, h] <;> omega

/-- Helper: after `apply_threshold`, the INCLUDED cards are exactly those at or
above the threshold. -/
theorem apply_threshold_countP (cards : List Card) (t : ℚ) :
    (apply_threshold cards t).countP (fun c => decide (c.status = CardStatus.INCLUDED)) =
      cards.countP (fun c => decide (t ≤ compute_card_score c)) := by
  induction cards with
  | nil => rfl
  | cons c cs ih =>
    by_cases h : t ≤ compute_card_score c <;>
      simp [apply_threshold, List.countP_cons, h, ih]

/-- C4: `preview_threshold` returns exactly the count of cards with score at
or above the threshold as `would_include` (the same number of cards
`apply_threshold` would set to INCLUDED), `would_exclude` as the complement,
and the list length as `total`; in this embedding it is a pure function that
returns only counters, so no card is modified. -/
theorem preview_threshold_spec (cards : List Card) (t : ℚ) :
    preview_threshold cards t =
      ⟨t, cards.countP (fun c => decide (t ≤ compute_card_score c)),
        cards.length - cards.countP (fun c => decide (t ≤ compute_card_score c)),
        cards.length⟩ ∧
    (preview_threshold cards t).would_include =
      (apply_threshold cards t).countP (fun c => decide (c.status = CardStatus.INCLUDED)) ∧
    (preview_threshold cards t).would_exclude =
      (preview_threshold cards t).total - (preview_threshold cards t).would_include := by
  refine ⟨?_, ?_, ?_⟩
  · simp [preview_threshold, previewCounts_eq]
  · simp [preview_threshold, previewCounts_eq, apply_threshold_countP]
  · simp [preview_threshold, previewCounts_eq]

/-- The ranking comparator is transitive. -/
theorem rankLe_trans : ∀ a b c : Card,
    rankLe a b = true → rankLe b c = true → rankLe a c = true := by
  intro a b c h1 h2
  simp only [rankLe, decide_eq_true_eq] at h1 h2 ⊢
  exact le_trans h2 h1

/-- The ranking comparator is total. -/
theorem rankLe_total : ∀ a b : Card, (rankLe a b || rankLe b a) = true := by
  intro a b
  simp only [rankLe, Bool.or_eq_true, decide_eq_true_eq]
  exact le_total _ _

/-- A list whose members are pairwise related in every order is `Pairwise`. -/
theorem pairwise_of_forall_mem {α : Type} {R : α → α → Prop} :
    ∀ {l : List α}, (∀ a ∈ l, ∀ b ∈ l, R a b) → l.Pairwise R := by
  intro l
  induction l with
  | nil => intro _; exact List.Pairwise.nil
  | cons x xs ih =>
    intro h
    exact List.Pairwise.cons
      (fun b hb => h x (List.mem_cons_self x xs) b (List.mem_cons_of_mem x hb))
      (ih fun a ha b hb =>
        h a (List.mem_cons_of_mem x ha) b (List.mem_cons_of_mem x hb))

/-- C8: `rank_cards` is a permutation of its input, sorted by score descending,
stable (cards of any fixed score keep their original relative order: filtering
the output to one score class gives exactly the input filtered to that class),
and idempotent. -/
theorem rank_cards_spec (cards : List Card) :
    (rank_cards cards).Perm cards ∧
    (rank_cards cards).Pairwise
      (fun a b => compute_card_score b ≤ compute_card_score a) ∧
    (∀ s : ℚ, (rank_cards cards).filter (fun c => decide (compute_card_score c = s)) =
      cards.filter (fun c => decide (compute_card_score c = s))) ∧
    rank_cards (rank_cards cards) = rank_cards cards := by
  refine ⟨List.mergeSort_perm cards rankLe, ?_, ?_, ?_⟩
  · exact (List.sorted_mergeSort rankLe_trans rankLe_total cards).imp
      (fun h => by simpa [rankLe, decide_eq_true_eq] using h)
  · intro s
    have hsub : (cards.filter (fun c => decide (compute_card_score c = s))).Sublist
        (rank_cards cards) := by
      apply List.sublist_mergeSort rankLe_trans rankLe_total
      · apply pairwise_of_forall_mem
        intro a ha b hb
        have ha2 := (List.mem_filter.mp ha).2
        have hb2 := (List.mem_filter.mp hb).2
        simp only [decide_eq_true_eq] at ha2 hb2
        simp [rankLe, ha2, hb2]
      · exact List.filter_sublist cards
    have hsub2 : (cards.filter (fun c => decide (compute_card_score c = s))).Sublist
        ((rank_cards cards).filter (fun c => decide (compute_card_score c = s))) := by
      have h2 := List.Sublist.filter (fun c => decide (compute_card_score c = s)) hsub
      simpa [List.filter_filter] using h2
    have hlen : ((rank_cards cards).filter
        (fun c => decide (compute_card_score c = s))).length =
        (cards.filter (fun c => decide (compute_card_score c = s))).length := by
      rw [← List.countP_eq_length_filter, ← List.countP_eq_length_filter]
      exact (List.mergeSort_perm cards rankLe).countP_eq _
    exact (hsub2.eq_of_length hlen.symm).symm
  · exact List.mergeSort_of_sorted (List.sorted_mergeSort rankLe_trans rankLe_total cards)

/-- The enumerated ranking comparator is transitive. -/
theorem rankEnumLe_trans : ∀ a b c : ℕ × Card,
    rankEnumLe a b = true → rankEnumLe b c = true → rankEnumLe a c = true := by
  intro a b c h1 h2
  simp only [rankEnumLe, decide_eq_true_eq] at h1 h2 ⊢
  exact le_trans h2 h1

/-- The enumerated ranking comparator is total. -/
theorem rankEnumLe_total : ∀ a b : ℕ × Card, (rankEnumLe a b || rankEnumLe b a) = true := by
  intro a b
  simp only [rankEnumLe, Bool.or_eq_true, decide_eq_true_eq]
  exact le_total _ _

/-- The ranked enumeration is a permutation of the enumeration. -/
theorem rankedEnum_perm (cards : List Card) : (rankedEnum cards).Perm cards.enum :=
  List.mergeSort_perm cards.enum rankEnumLe

/-- The ranked enumeration has as many entries as there are cards. -/
theorem rankedEnum_length (cards : List Card) :
    (rankedEnum cards).length = cards.length := by
  unfold rankedEnum
  rw [List.length_mergeSort, List.enum_length]

/-- The original positions carried through the ranked enumeration are
pairwise distinct. -/
theorem rankedEnum_nodup_fst (cards : List Card) :
    ((rankedEnum cards).map Prod.fst).Nodup := by
  have hperm : ((rankedEnum cards).map Prod.fst).Perm (List.range cards.length) := by
    have h := (rankedEnum_perm cards).map Prod.fst
    rwa [List.enum_map_fst] at h
  exact (List.nodup_range cards.length).perm (List.Perm.symm hperm)

/-- A duplicate-free list contained in a singleton and containing its element
is that singleton. -/
theorem nodup_subset_singleton {α : Type} (l : List α) (b : α) (hn : l.Nodup)
    (hs : ∀ x ∈ l, x = b) (hb : b ∈ l) : l = [b] := by
  cases l with
  | nil => cases hb
  | cons x xs =>
    have hx : x = b := hs x (List.mem_cons_self x xs)
    subst hx
    have hxs : xs = [] := by
      cases xs with
      | nil => rfl
      | cons y ys =>
        have hy : y = x := hs y (List.mem_cons_of_mem x (List.mem_cons_self y ys))
        rw [List.nodup_cons] at hn
        exact absurd (hy ▸ List.mem_cons_self y ys) hn.1
    rw [hxs]

/-- Counting membership in a duplicate-free sublist of a duplicate-free list
containing it gives its length. -/
theorem countP_mem_eq_length {α : Type} [DecidableEq α] (big keep : List α)
    (hbig : big.Nodup) (hkeep : keep.Nodup) (hsub : ∀ x ∈ keep, x ∈ big) :
    big.countP (fun x => decide (x ∈ keep)) = keep.length := by
  rw [List.countP_eq_length_filter]
  have hperm : (big.filter (fun x => decide (x ∈ keep))).Perm keep := by
    rw [List.perm_ext_iff_of_nodup (List.Nodup.filter _ hbig) hkeep]
    intro a
    simp only [List.mem_filter, decide_eq_true_eq]
    exact ⟨fun h => h.2, fun h => ⟨hsub a h, h⟩⟩
  exact hperm.length_eq

/-- Every position of `apply_top_n`'s output is the input card at that
position with its status overwritten according to whether the position sits
in the first n ranked slots. -/
theorem apply_top_n_getElem (cards : List Card) (n : ℕ) (p : ℕ) :
    (apply_top_n cards n)[p]? = cards[p]?.map (fun c =>
      if p ∈ ((rankedEnum cards).take n).map Prod.fst then
        { c with status := CardStatus.INCLUDED }
      else { c with status := CardStatus.EXCLUDED }) := by
  unfold apply_top_n
  rw [List.getElem?_map, List.getElem?_enum]
  cases h : cards[p]? <;> simp

/-- C10: `apply_top_n` sets status INCLUDED on exactly the cards occupying the
first n places of the stable score-descending ranking (found at their original
positions in the returned, order-preserving list), EXCLUDED on all the others,
so the INCLUDED count is `min n (length cards)`; with n = 0 every card is
EXCLUDED, and with n ≥ length every card is INCLUDED. -/
theorem apply_top_n_spec (cards : List Card) (n : ℕ) :
    (∀ p c, (p, c) ∈ (rankedEnum cards).take n →
      (apply_top_n cards n)[p]? = some { c with status := CardStatus.INCLUDED }) ∧
    (∀ p c, (p, c) ∈ (rankedEnum cards).drop n →
      (apply_top_n cards n)[p]? = some { c with status := CardStatus.EXCLUDED }) ∧
    (apply_top_n cards n).countP (fun c => decide (c.status = CardStatus.INCLUDED)) =
      min n cards.length ∧
    (apply_top_n cards n).length = cards.length ∧
    (n = 0 → ∀ c ∈ apply_top_n cards n, c.status = CardStatus.EXCLUDED) ∧
    (cards.length ≤ n → ∀ c ∈ apply_top_n cards n, c.status = CardStatus.INCLUDED) := by
  have hEnumOf : ∀ p c, (p, c) ∈ rankedEnum cards → p < cards.length ∧
      cards[p]? = some c := by
    intro p c h
    have hmem : (p, c) ∈ cards.enum := (rankedEnum_perm cards).mem_iff.mp h
    obtain ⟨hlt, hc⟩ := List.mem_enum hmem
    exact ⟨hlt, by rw [List.getElem?_eq_getElem hlt, hc]⟩
  have hdisj : ∀ p, p ∈ ((rankedEnum cards).take n).map Prod.fst →
      p ∈ ((rankedEnum cards).drop n).map Prod.fst → False := by
    intro p h1 h2
    have hnd : (((rankedEnum cards).take n).map Prod.fst ++
        ((rankedEnum cards).drop n).map Prod.fst).Nodup := by
      rw [← List.map_append, List.take_append_drop]
      exact rankedEnum_nodup_fst cards
    exact (List.nodup_append.mp hnd).2.2 h1 h2
  refine ⟨?_, ?_, ?_, ?_, ?_, ?_⟩
  · intro p c h
    have hk : p ∈ ((rankedEnum cards).take n).map Prod.fst :=
      List.mem_map_of_mem Prod.fst h
    obtain ⟨hp, hc⟩ := hEnumOf p c ((List.take_sublist n _).subset h)
    rw [apply_top_n_getElem, hc, Option.map_some', if_pos hk]
  · intro p c h
    obtain ⟨hp, hc⟩ := hEnumOf p c ((List.drop_sublist n _).subset h)
    have hnk : p ∉ ((rankedEnum cards).take n).map Prod.fst := by
      intro hk
      exact hdisj p hk (List.mem_map_of_mem Prod.fst h)
    rw [apply_top_n_getElem, hc, Option.map_some', if_neg hnk]
  · unfold apply_top_n
    rw [List.countP_map]
    rw [List.countP_congr (q := fun pc : ℕ × Card =>
        decide (pc.1 ∈ ((rankedEnum cards).take n).map Prod.fst)) ?_]
    · have hmapped : cards.enum.countP (fun pc : ℕ × Card =>
          decide (pc.1 ∈ ((rankedEnum cards).take n).map Prod.fst)) =
          (cards.enum.map Prod.fst).countP (fun x =>
            decide (x ∈ ((rankedEnum cards).take n).map Prod.fst)) := by
        rw [List.countP_map]
        rfl
      rw [hmapped, List.enum_map_fst]
      have hkeepnodup : (((rankedEnum cards).take n).map Prod.fst).Nodup :=
        List.Nodup.sublist (List.Sublist.map Prod.fst (List.take_sublist n _))
          (rankedEnum_nodup_fst cards)
      have hkeepsub : ∀ x ∈ ((rankedEnum cards).take n).map Prod.fst,
          x ∈ List.range cards.length := by
        intro x hx
        obtain ⟨pc, hpc, hfst⟩ := List.mem_map.mp hx
        have hmem : pc ∈ rankedEnum cards := (List.take_sublist n _).subset hpc
        obtain ⟨hp, _⟩ := hEnumOf pc.1 pc.2 (by rwa [Prod.mk.eta])
        rw [List.mem_range, ← hfst]
        exact hp
      rw [countP_mem_eq_length _ _ (List.nodup_range _) hkeepnodup hkeepsub]
      rw [List.length_map, List.length_take, rankedEnum_length]
    · intro pc _
      by_cases h : pc.1 ∈ ((rankedEnum cards).take n).map Prod.fst
      · rw [Function.comp_apply, if_pos h]
        exact iff_of_true (by simp) (by simpa using h)
      · rw [Function.comp_apply, if_neg h]
        exact iff_of_false (by simp) (by simpa using h)
  · unfold apply_top_n
    rw [List.length_map, List.enum_length]
  · intro hn c hc
    unfold apply_top_n at hc
    obtain ⟨pc, _, hpc⟩ := List.mem_map.mp hc
    subst hn
    simp only [List.take_zero, List.map_nil, List.not_mem_nil, if_false] at hpc
    rw [← hpc]
  · intro hn c hc
    unfold apply_top_n at hc
    obtain ⟨pc, hpcmem, hpc⟩ := List.mem_map.mp hc
    have hall : (rankedEnum cards).take n = rankedEnum cards := by
      apply List.take_of_length_le
      rw [rankedEnum_length]
      exact hn
    have hin : pc.1 ∈ ((rankedEnum cards).take n).map Prod.fst := by
      rw [hall]
      have hmem2 : (pc.1, pc.2) ∈ cards.enum := by rw [Prod.mk.eta]; exact hpcmem
      have hmem : (pc.1, pc.2) ∈ rankedEnum cards :=
        (rankedEnum_perm cards).mem_iff.mpr hmem2
      exact List.mem_map_of_mem Prod.fst hmem
    rw [if_pos hin] at hpc
    rw [← hpc]

/-- Witness for C10 on a single card with n = 1: the lone card occupies the
first ranked slot and comes out INCLUDED. -/
theorem apply_top_n_spec_witness :
    (0, (⟨"w10", CardFormat.QA, some "q", some "ans", none, 5, 5, 0,
        CardStatus.EXCLUDED⟩ : Card)) ∈
      (rankedEnum [⟨"w10", CardFormat.QA, some "q", some "ans", none, 5, 5, 0,
        CardStatus.EXCLUDED⟩]).take 1 ∧
    (apply_top_n [⟨"w10", CardFormat.QA, some "q", some "ans", none, 5, 5, 0,
        CardStatus.EXCLUDED⟩] 1)[0]? =
      some { (⟨"w10", CardFormat.QA, some "q", some "ans", none, 5, 5, 0,
        CardStatus.EXCLUDED⟩ : Card) with status := CardStatus.INCLUDED } := by
  have hmem : (0, (⟨"w10", CardFormat.QA, some "q", some "ans", none, 5, 5, 0,
      CardStatus.EXCLUDED⟩ : Card)) ∈
      (rankedEnum [⟨"w10", CardFormat.QA, some "q", some "ans", none, 5, 5, 0,
        CardStatus.EXCLUDED⟩]).take 1 := by
    simp [rankedEnum, List.enum_cons, List.mergeSort_singleton]
  exact ⟨hmem, (apply_top_n_spec [⟨"w10", CardFormat.QA, some "q", some "ans", none,
    5, 5, 0, CardStatus.EXCLUDED⟩] 1).1 0 _ hmem⟩

/-- Invariants of the inner scan: the collected duplicates carry pairwise
distinct ids, none of which was assigned on entry, and the returned assigned
set is exactly the entry set extended by the collected ids. -/
theorem scanGroup_inv (thr : ℚ) (cross : Bool) (c1 : Card) (t1 : String) :
    ∀ (rest : List (Card × String)) (assigned : List String),
      ((scanGroup thr cross c1 t1 rest assigned).dups.map Card.id).Nodup ∧
      (∀ c ∈ (scanGroup thr cross c1 t1 rest assigned).dups, c.id ∉ assigned) ∧
      (∀ x, x ∈ (scanGroup thr cross c1 t1 rest assigned).assigned ↔
        x ∈ assigned ∨ x ∈ (scanGroup thr cross c1 t1 rest assigned).dups.map Card.id) := by
  intro rest
  induction rest with
  | nil =>
    intro assigned
    simp [scanGroup]
  | cons p rest ih =>
    intro assigned
    obtain ⟨card2, text2⟩ := p
    by_cases h1 : card2.id ∈ assigned
    · simpa [scanGroup, h1] using ih assigned
    · by_cases h2 : cross = false ∧ c1.source_chapter_index ≠ card2.source_chapter_index
      · simpa [scanGroup, h1, h2] using ih assigned
      · by_cases h3 : t1 = text2
        · obtain ⟨ihn, ihna, iha⟩ := ih (card2.id :: assigned)
          rw [show scanGroup thr cross c1 t1 ((card2, text2) :: rest) assigned =
              ⟨card2 :: (scanGroup thr cross c1 t1 rest (card2.id :: assigned)).dups,
                1 :: (scanGroup thr cross c1 t1 rest (card2.id :: assigned)).sims,
                (scanGroup thr cross c1 t1 rest (card2.id :: assigned)).assigned,
                (scanGroup thr cross c1 t1 rest (card2.id :: assigned)).exact + 1,
                (scanGroup thr cross c1 t1 rest (card2.id :: assigned)).similar⟩ by
            simp [scanGroup, h1, h2, h3]]
          refine ⟨?_, ?_, ?_⟩
          · simp only [List.map_cons, List.nodup_cons]
            constructor
            · intro hmem
              obtain ⟨c, hc, hcid⟩ := List.mem_map.mp hmem
              exact (ihna c hc) (hcid ▸ List.mem_cons_self card2.id assigned)
            · exact ihn
          · intro c hc
            rcases List.mem_cons.mp hc with hce | hcm
            · rw [hce]; exact h1
            · intro hmem
              exact (ihna c hcm) (List.mem_cons_of_mem _ hmem)
          · intro x
            rw [iha x]
            simp only [List.mem_cons, List.map_cons]
            tauto
        · by_cases h4 : thr ≤ similarity_ratio t1 text2
          · obtain ⟨ihn, ihna, iha⟩ := ih (card2.id :: assigned)
            rw [show scanGroup thr cross c1 t1 ((card2, text2) :: rest) assigned =
                ⟨card2 :: (scanGroup thr cross c1 t1 rest (card2.id :: assigned)).dups,
                  similarity_ratio t1 text2 ::
                    (scanGroup thr cross c1 t1 rest (card2.id :: assigned)).sims,
                  (scanGroup thr cross c1 t1 rest (card2.id :: assigned)).assigned,
                  (scanGroup thr cross c1 t1 rest (card2.id :: assigned)).exact,
                  (scanGroup thr cross c1 t1 rest (card2.id :: assigned)).similar + 1⟩ by
              simp [scanGroup, h1, h2, h3, h4]]
            refine ⟨?_, ?_, ?_⟩
            · simp only [List.map_cons, List.nodup_cons]
              constructor
              · intro hmem
                obtain ⟨c, hc, hcid⟩ := List.mem_map.mp hmem
                exact (ihna c hc) (hcid ▸ List.mem_cons_self card2.id assigned)
              · exact ihn
            · intro c hc
              rcases List.mem_cons.mp hc with hce | hcm
              · rw [hce]; exact h1
              · intro hmem
                exact (ihna c hcm) (List.mem_cons_of_mem _ hmem)
            · intro x
              rw [iha x]
              simp only [List.mem_cons, List.map_cons]
              tauto
          · simpa [scanGroup, h1, h2, h3, h4] using ih assigned

/-- Invariants of the outer sweep: across all emitted groups the member ids
(primaries and duplicates alike) are pairwise distinct, and none of them was
assigned on entry. -/
theorem dedupLoop_inv (thr : ℚ) (cross : Bool) :
    ∀ (l : List (Card × String)) (assigned : List String),
      ((dedupLoop thr cross l assigned).groups.flatMap
        (fun g => g.all_cards.map Card.id)).Nodup ∧
      (∀ x ∈ (dedupLoop thr cross l assigned).groups.flatMap
        (fun g => g.all_cards.map Card.id), x ∉ assigned) := by
  intro l
  induction l with
  | nil =>
    intro assigned
    simp [dedupLoop]
  | cons p rest ih =>
    intro assigned
    obtain ⟨card1, text1⟩ := p
    by_cases h1 : card1.id ∈ assigned
    · simpa [dedupLoop, h1] using ih assigned
    · obtain ⟨sn, sna, sa⟩ := scanGroup_inv thr cross card1 text1 rest (card1.id :: assigned)
      obtain ⟨dn, dna⟩ := ih (scanGroup thr cross card1 text1 rest (card1.id :: assigned)).assigned
      have hsub : ∀ x, x ∈ assigned →
          x ∈ (scanGroup thr cross card1 text1 rest (card1.id :: assigned)).assigned := by
        intro x hx
        exact (sa x).mpr (Or.inl (List.mem_cons_of_mem _ hx))
      by_cases hd : (scanGroup thr cross card1 text1 rest (card1.id :: assigned)).dups.isEmpty
      · rw [show dedupLoop thr cross ((card1, text1) :: rest) assigned =
            ⟨(dedupLoop thr cross rest
                (scanGroup thr cross card1 text1 rest (card1.id :: assigned)).assigned).groups,
              (scanGroup thr cross card1 text1 rest (card1.id :: assigned)).exact +
                (dedupLoop thr cross rest
                  (scanGroup thr cross card1 text1 rest (card1.id :: assigned)).assigned).exact,
              (scanGroup thr cross card1 text1 rest (card1.id :: assigned)).similar +
                (dedupLoop thr cross rest
                  (scanGroup thr cross card1 text1 rest (card1.id :: assigned)).assigned).similar⟩ by
          simp [dedupLoop, h1, hd]]
        refine ⟨dn, ?_⟩
        intro x hx hxa
        exact dna x hx (hsub x hxa)
      · rw [show dedupLoop thr cross ((card1, text1) :: rest) assigned =
            ⟨⟨card1, (scanGroup thr cross card1 text1 rest (card1.id :: assigned)).dups,
                (scanGroup thr cross card1 text1 rest (card1.id :: assigned)).sims⟩ ::
              (dedupLoop thr cross rest
                (scanGroup thr cross card1 text1 rest (card1.id :: assigned)).assigned).groups,
              (scanGroup thr cross card1 text1 rest (card1.id :: assigned)).exact +
                (dedupLoop thr cross rest
                  (scanGroup thr cross card1 text1 rest (card1.id :: assigned)).assigned).exact,
              (scanGroup thr cross card1 text1 rest (card1.id :: assigned)).similar +
                (dedupLoop thr cross rest
                  (scanGroup thr cross card1 text1 rest (card1.id :: assigned)).assigned).similar⟩ by
          simp [dedupLoop, h1, hd]]
        simp only [List.flatMap_cons]
        have hgroup : ((⟨card1,
            (scanGroup thr cross card1 text1 rest (card1.id :: assigned)).dups,
            (scanGroup thr cross card1 text1 rest (card1.id :: assigned)).sims⟩ :
              DuplicateGroup).all_cards.map Card.id) =
            card1.id :: ((scanGroup thr cross card1 text1 rest
              (card1.id :: assigned)).dups.map Card.id) := by
          rfl
        rw [hgroup]
        constructor
        · rw [List.nodup_append]
          refine ⟨?_, dn, ?_⟩
          · rw [List.nodup_cons]
            refine ⟨?_, sn⟩
            intro hmem
            obtain ⟨c, hc, hcid⟩ := List.mem_map.mp hmem
            exact sna c hc (hcid ▸ List.mem_cons_self card1.id assigned)
          · intro x hx hx2
            have hxs : x ∈ (scanGroup thr cross card1 text1 rest
                (card1.id :: assigned)).assigned := by
              rcases List.mem_cons.mp hx with he | hm
              · exact (sa x).mpr (Or.inl (he ▸ List.mem_cons_self card1.id assigned))
              · exact (sa x).mpr (Or.inr hm)
            exact dna x hx2 hxs
        · intro x hx hxa
          rcases List.mem_append.mp hx with hxg | hxd
          · rcases List.mem_cons.mp hxg with he | hm
            · exact h1 (he ▸ hxa)
            · obtain ⟨c, hc, hcid⟩ := List.mem_map.mp hm
              exact sna c hc (hcid ▸ List.mem_cons_of_mem _ hxa)
          · exact dna x hxd (hsub x hxa)

/-- C3: on cards with pairwise distinct ids, `find_duplicates` produces a
partition — no card (by id) occurs in more than one duplicate group, nor twice
within a group — together with the counter identities
`unique_cards = total_cards - exact_duplicates - similar_duplicates` and
`duplicates_found = sum over groups of (count - 1)`. -/
theorem find_duplicates_invariants (threshold : ℚ) (cards : List Card) (cross : Bool)
    (hids : (cards.map Card.id).Nodup) :
    ((find_duplicates threshold cards cross).duplicate_groups.flatMap
      (fun g => g.all_cards.map Card.id)).Nodup ∧
    (find_duplicates threshold cards cross).unique_cards =
      ((find_duplicates threshold cards cross).total_cards : ℤ) -
        (find_duplicates threshold cards cross).exact_duplicates -
        (find_duplicates threshold cards cross).similar_duplicates ∧
    (find_duplicates threshold cards cross).duplicates_found =
      ((find_duplicates threshold cards cross).duplicate_groups.map
        (fun g => g.count - 1)).sum := by
  by_cases hc : cards.isEmpty
  · simp [find_duplicates, hc, DeduplicationResult.duplicates_found]
  · have h := dedupLoop_inv threshold cross
      (cards.map fun card => (card, normalize_text (get_card_text card))) []
    refine ⟨?_, ?_, ?_⟩
    · simpa [find_duplicates, hc] using h.1
    · simp [find_duplicates, hc]
    · rfl

/-- Witness for C3: two distinct-id cards with identical text form one group
and the invariants hold. -/
theorem find_duplicates_invariants_witness :
    (([⟨"a", CardFormat.QA, some "q", some "ans", none, 5, 5, 0, CardStatus.INCLUDED⟩,
       ⟨"b", CardFormat.QA, some "q", some "ans", none, 3, 3, 0, CardStatus.INCLUDED⟩] :
        List Card).map Card.id).Nodup ∧
    ((find_duplicates (85 / 100)
      [⟨"a", CardFormat.QA, some "q", some "ans", none, 5, 5, 0, CardStatus.INCLUDED⟩,
       ⟨"b", CardFormat.QA, some "q", some "ans", none, 3, 3, 0, CardStatus.INCLUDED⟩]
      true).duplicate_groups.flatMap (fun g => g.all_cards.map Card.id)).Nodup ∧
    (find_duplicates (85 / 100)
      [⟨"a", CardFormat.QA, some "q", some "ans", none, 5, 5, 0, CardStatus.INCLUDED⟩,
       ⟨"b", CardFormat.QA, some "q", some "ans", none, 3, 3, 0, CardStatus.INCLUDED⟩]
      true).unique_cards =
      ((find_duplicates (85 / 100)
        [⟨"a", CardFormat.QA, some "q", some "ans", none, 5, 5, 0, CardStatus.INCLUDED⟩,
         ⟨"b", CardFormat.QA, some "q", some "ans", none, 3, 3, 0, CardStatus.INCLUDED⟩]
        true).total_cards : ℤ) -
      (find_duplicates (85 / 100)
        [⟨"a", CardFormat.QA, some "q", some "ans", none, 5, 5, 0, CardStatus.INCLUDED⟩,
         ⟨"b", CardFormat.QA, some "q", some "ans", none, 3, 3, 0, CardStatus.INCLUDED⟩]
        true).exact_duplicates -
      (find_duplicates (85 / 100)
        [⟨"a", CardFormat.QA, some "q", some "ans", none, 5, 5, 0, CardStatus.INCLUDED⟩,
         ⟨"b", CardFormat.QA, some "q", some "ans", none, 3, 3, 0, CardStatus.INCLUDED⟩]
        true).similar_duplicates ∧
    (find_duplicates (85 / 100)
      [⟨"a", CardFormat.QA, some "q", some "ans", none, 5, 5, 0, CardStatus.INCLUDED⟩,
       ⟨"b", CardFormat.QA, some "q", some "ans", none, 3, 3, 0, CardStatus.INCLUDED⟩]
      true).duplicates_found =
      ((find_duplicates (85 / 100)
        [⟨"a", CardFormat.QA, some "q", some "ans", none, 5, 5, 0, CardStatus.INCLUDED⟩,
         ⟨"b", CardFormat.QA, some "q", some "ans", none, 3, 3, 0, CardStatus.INCLUDED⟩]
        true).duplicate_groups.map (fun g => g.count - 1)).sum :=
  ⟨by decide, find_duplicates_invariants (85 / 100)
    [⟨"a", CardFormat.QA, some "q", some "ans", none, 5, 5, 0, CardStatus.INCLUDED⟩,
     ⟨"b", CardFormat.QA, some "q", some "ans", none, 3, 3, 0, CardStatus.INCLUDED⟩]
    true (by decide)⟩

/-- The seed's key never exceeds the selected maximum's key. -/
theorem key_seed_le_pyMaxBy (key : Card → ℚ) :
    ∀ (l : List Card) (x : Card), key x ≤ key (pyMaxBy key x l) := by
  intro l
  induction l with
  | nil => intro x; simp [pyMaxBy]
  | cons c cs ih =>
    intro x
    rw [pyMaxBy]
    by_cases h : key x < key c
    · rw [if_pos h]
      exact le_trans (le_of_lt h) (ih c)
    · rw [if_neg h]
      exact ih x

/-- Every element offered to the Python-style max scan has key at most the
selected maximum's key. -/
theorem key_le_pyMaxBy (key : Card → ℚ) :
    ∀ (l : List Card) (x c : Card), c ∈ x :: l → key c ≤ key (pyMaxBy key x l) := by
  intro l
  induction l with
  | nil =>
    intro x c hc
    rcases List.mem_cons.mp hc with he | hm
    · rw [he]; simp [pyMaxBy]
    · cases hm
  | cons d cs ih =>
    intro x c hc
    rw [pyMaxBy]
    rcases List.mem_cons.mp hc with he | hm
    · subst he
      by_cases h : key c < key d
      · rw [if_pos h]
        exact le_trans (le_of_lt h) (key_seed_le_pyMaxBy key cs d)
      · rw [if_neg h]
        exact key_seed_le_pyMaxBy key cs c
    · rcases List.mem_cons.mp hm with he2 | hm2
      · subst he2
        by_cases h : key x < key c
        · rw [if_pos h]
          exact key_seed_le_pyMaxBy key cs c
        · rw [if_neg h]
          exact le_trans (not_lt.mp h) (key_seed_le_pyMaxBy key cs x)
      · by_cases h : key x < key d
        · rw [if_pos h]
          exact ih d c (List.mem_cons_of_mem d hm2)
        · rw [if_neg h]
          exact ih x c (List.mem_cons_of_mem x hm2)

/-- The Python-style max scan selects the first maximum in iteration order:
the scanned list splits around the selected card with everything before it
strictly below it. -/
theorem pyMaxBy_first_max (key : Card → ℚ) :
    ∀ (l : List Card) (x : Card), ∃ pre post,
      x :: l = pre ++ pyMaxBy key x l :: post ∧
      ∀ c ∈ pre, key c < key (pyMaxBy key x l) := by
  intro l
  induction l with
  | nil =>
    intro x
    exact ⟨[], [], by simp [pyMaxBy], by simp⟩
  | cons c cs ih =>
    intro x
    rw [pyMaxBy]
    by_cases h : key x < key c
    · rw [if_pos h]
      obtain ⟨pre, post, heq, hlt⟩ := ih c
      refine ⟨x :: pre, post, ?_, ?_⟩
      · rw [List.cons_append, ← heq]
      · intro y hy
        rcases List.mem_cons.mp hy with he | hm
        · rw [he]
          exact lt_of_lt_of_le h (key_seed_le_pyMaxBy key cs c)
        · exact hlt y hm
    · rw [if_neg h]
      obtain ⟨pre, post, heq, hlt⟩ := ih x
      set b := pyMaxBy key x cs
      cases pre with
      | nil =>
        rw [List.nil_append] at heq
        injection heq with h1 h2
        refine ⟨[], c :: cs, ?_, by simp⟩
        rw [List.nil_append, ← h1]
      | cons p pre2 =>
        rw [List.cons_append] at heq
        injection heq with h1 h2
        refine ⟨x :: c :: pre2, post, ?_, ?_⟩
        · rw [List.cons_append, List.cons_append]
          congr 2
        · intro y hy
          have hxlt : key x < key b := hlt x (by rw [h1]; exact List.mem_cons_self p pre2)
          rcases List.mem_cons.mp hy with he | hm
          · rw [he]
            exact hxlt
          · rcases List.mem_cons.mp hm with he2 | hm2
            · rw [he2]
              exact lt_of_le_of_lt (not_lt.mp h) hxlt
            · exact hlt y (List.mem_cons_of_mem p hm2)

/-- Unfolding of the per-group body at the "highest_score" strategy. -/
theorem markGroup_highest_score (g : DuplicateGroup) :
    markGroup "highest_score" g =
      (⟨if g.primary_card.id ≠
            (pyMaxBy (fun c => c.compute_score) g.primary_card g.duplicates).id then
          excludeCard g.primary_card
        else g.primary_card,
        g.duplicates.map (fun c =>
          if c.id ≠ (pyMaxBy (fun c => c.compute_score) g.primary_card g.duplicates).id then
            excludeCard c
          else c),
        g.similarity_scores⟩,
       g.all_cards.countP (fun c => decide (c.id ≠
         (pyMaxBy (fun c => c.compute_score) g.primary_card g.duplicates).id))) := by
  unfold markGroup
  rw [if_neg (by decide), if_pos rfl]

/-- The Python-style max scan picks a member of the scanned list. -/
theorem pyMaxBy_mem (key : Card → ℚ) (l : List Card) (x : Card) :
    pyMaxBy key x l ∈ x :: l := by
  obtain ⟨pre, post, heq, _⟩ := pyMaxBy_first_max key l x
  rw [heq]
  exact List.mem_append_right pre (List.mem_cons_self _ _)

/-- Splitting a count over the decidable id-match with a fixed card. -/
theorem countP_id_ne_add (l : List Card) (b : Card) :
    l.countP (fun c => decide (c.id ≠ b.id)) +
      l.countP (fun c => decide (c.id = b.id)) = l.length := by
  induction l with
  | nil => rfl
  | cons x xs ih =>
    rw [List.countP_cons, List.countP_cons, List.length_cons]
    by_cases hx : x.id = b.id
    · rw [if_neg (by simp [hx]), if_pos (by simp [hx])]
      omega
    · rw [if_pos (by simp [hx]), if_neg (by simp [hx])]
      omega

/-- In a list with pairwise distinct ids containing `b`, every member except
`b` itself differs from `b` in id, so the count of id-mismatches is the
length minus one. -/
theorem countP_id_ne_of_nodup (l : List Card) (b : Card)
    (hn : (l.map Card.id).Nodup) (hb : b ∈ l) :
    l.countP (fun c => decide (c.id ≠ b.id)) = l.length - 1 := by
  have hcount1 : l.countP (fun c => decide (c.id = b.id)) = 1 := by
    rw [List.countP_eq_length_filter]
    have hfeq : l.filter (fun c => decide (c.id = b.id)) = [b] := by
      apply nodup_subset_singleton _ _ (List.Nodup.filter _ (List.Nodup.of_map Card.id hn))
      · intro x hx
        have hxm := List.mem_filter.mp hx
        exact List.inj_on_of_nodup_map hn hxm.1 hb (by simpa using hxm.2)
      · exact List.mem_filter.mpr ⟨hb, by simp⟩
    rw [hfeq]
    rfl
  have hsplit := countP_id_ne_add l b
  omega

/-- C6: `mark_duplicates_excluded` with keep-strategy "highest_score", on a
result whose groups carry distinct card ids, relates each input group to its
output group as follows: there is a member b of the group (primary or
duplicate) whose score is maximal, which is the first maximum in iteration
order (everything before it scores strictly less); b keeps its status
untouched while every other member is set to EXCLUDED; similarity scores are
unchanged; and the returned count is the total number of non-survivors,
`sum over groups of (count - 1)`. -/
theorem mark_duplicates_excluded_highest_score_spec (result : DeduplicationResult)
    (h : ∀ g ∈ result.duplicate_groups, (g.all_cards.map Card.id).Nodup) :
    (mark_duplicates_excluded result "highest_score").2 =
      (result.duplicate_groups.map (fun g => g.count - 1)).sum ∧
    List.Forall₂ (fun g g2 : DuplicateGroup =>
      ∃ b ∈ g.all_cards,
        (∀ c ∈ g.all_cards, c.compute_score ≤ b.compute_score) ∧
        (∃ pre post, g.all_cards = pre ++ b :: post ∧
          ∀ c ∈ pre, c.compute_score < b.compute_score) ∧
        g2.all_cards = g.all_cards.map (fun c => if c = b then c else excludeCard c) ∧
        g2.similarity_scores = g.similarity_scores)
      result.duplicate_groups
      (mark_duplicates_excluded result "highest_score").1.duplicate_groups := by
  constructor
  · show ((result.duplicate_groups.map (markGroup "highest_score")).map Prod.snd).sum = _
    rw [List.map_map]
    apply congrArg List.sum
    apply List.map_congr_left
    intro g hg
    rw [Function.comp_apply, markGroup_highest_score]
    have hb : pyMaxBy (fun c => c.compute_score) g.primary_card g.duplicates ∈
        g.all_cards := pyMaxBy_mem _ _ _
    rw [countP_id_ne_of_nodup _ _ (h g hg) hb]
    simp [DuplicateGroup.count, DuplicateGroup.all_cards]
  · show List.Forall₂ _ result.duplicate_groups
      ((result.duplicate_groups.map (markGroup "highest_score")).map Prod.fst)
    rw [List.map_map, List.forall₂_map_right_iff, List.forall₂_same]
    intro g hg
    have hnodup := h g hg
    refine ⟨pyMaxBy (fun c => c.compute_score) g.primary_card g.duplicates,
      pyMaxBy_mem _ _ _, ?_, ?_, ?_, ?_⟩
    · intro c hc
      exact key_le_pyMaxBy (fun c => c.compute_score) g.duplicates g.primary_card c hc
    · exact pyMaxBy_first_max (fun c => c.compute_score) g.duplicates g.primary_card
    · rw [Function.comp_apply, markGroup_highest_score]
      have hpoint : ∀ c ∈ g.all_cards,
          (if c.id ≠ (pyMaxBy (fun c => c.compute_score) g.primary_card g.duplicates).id
            then excludeCard c else c) =
          (if c = pyMaxBy (fun c => c.compute_score) g.primary_card g.duplicates
            then c else excludeCard c) := by
        intro c hc
        by_cases hcb : c = pyMaxBy (fun c => c.compute_score) g.primary_card g.duplicates
        · rw [if_pos hcb, if_neg (by rw [hcb]; simp)]
        · rw [if_neg hcb, if_pos ?_]
          intro hid
          exact hcb (List.inj_on_of_nodup_map hnodup hc (pyMaxBy_mem _ _ _) hid)
      show (if g.primary_card.id ≠ _ then excludeCard g.primary_card else g.primary_card) ::
          g.duplicates.map _ = _
      rw [show g.all_cards.map (fun c =>
          if c = pyMaxBy (fun c => c.compute_score) g.primary_card g.duplicates
          then c else excludeCard c) =
        (if g.primary_card = pyMaxBy (fun c => c.compute_score) g.primary_card g.duplicates
          then g.primary_card else excludeCard g.primary_card) ::
          g.duplicates.map (fun c =>
            if c = pyMaxBy (fun c => c.compute_score) g.primary_card g.duplicates
            then c else excludeCard c) from rfl]
      congr 1
      · exact hpoint g.primary_card (List.mem_cons_self _ _)
      · apply List.map_congr_left
        intro c hc
        exact hpoint c (List.mem_cons_of_mem _ hc)
    · rw [Function.comp_apply, markGroup_highest_score]

/-- Witness for C6: the concrete scenario of the spec, cards A(8,5) and B(3,3)
with identical text, strategy "highest_score". -/
theorem mark_duplicates_excluded_highest_score_spec_witness :
    (mark_duplicates_excluded
      (find_duplicates (85 / 100)
        [⟨"a", CardFormat.QA, some "q", some "ans", none, 8, 5, 0, CardStatus.INCLUDED⟩,
         ⟨"b", CardFormat.QA, some "q", some "ans", none, 3, 3, 0, CardStatus.INCLUDED⟩]
        true) "highest_score").2 =
      ((find_duplicates (85 / 100)
        [⟨"a", CardFormat.QA, some "q", some "ans", none, 8, 5, 0, CardStatus.INCLUDED⟩,
         ⟨"b", CardFormat.QA, some "q", some "ans", none, 3, 3, 0, CardStatus.INCLUDED⟩]
        true).duplicate_groups.map (fun g => g.count - 1)).sum ∧
    List.Forall₂ (fun g g2 : DuplicateGroup =>
      ∃ b ∈ g.all_cards,
        (∀ c ∈ g.all_cards, c.compute_score ≤ b.compute_score) ∧
        (∃ pre post, g.all_cards = pre ++ b :: post ∧
          ∀ c ∈ pre, c.compute_score < b.compute_score) ∧
        g2.all_cards = g.all_cards.map (fun c => if c = b then c else excludeCard c) ∧
        g2.similarity_scores = g.similarity_scores)
      (find_duplicates (85 / 100)
        [⟨"a", CardFormat.QA, some "q", some "ans", none, 8, 5, 0, CardStatus.INCLUDED⟩,
         ⟨"b", CardFormat.QA, some "q", some "ans", none, 3, 3, 0, CardStatus.INCLUDED⟩]
        true).duplicate_groups
      ((mark_duplicates_excluded
        (find_duplicates (85 / 100)
          [⟨"a", CardFormat.QA, some "q", some "ans", none, 8, 5, 0, CardStatus.INCLUDED⟩,
           ⟨"b", CardFormat.QA, some "q", some "ans", none, 3, 3, 0, CardStatus.INCLUDED⟩]
          true) "highest_score").1.duplicate_groups) :=
  mark_duplicates_excluded_highest_score_spec
    (find_duplicates (85 / 100)
      [⟨"a", CardFormat.QA, some "q", some "ans", none, 8, 5, 0, CardStatus.INCLUDED⟩,
       ⟨"b", CardFormat.QA, some "q", some "ans", none, 3, 3, 0, CardStatus.INCLUDED⟩]
      true) (by decide)

/-- C1: the code does not reject an unrecognised `keep_strategy`.  At a
concrete result with one group of two INCLUDED cards, calling
`mark_duplicates_excluded` with the unknown strategy "nonsense" matches no
branch: it silently leaves every card status unchanged and returns the count
0, instead of signalling an invalid argument as the design requires. -/
theorem mark_duplicates_excluded_unknown_strategy_noop :
    mark_duplicates_excluded unknownStrategyExample "nonsense" =
      (unknownStrategyExample, 0) ∧
    unknownStrategyExample.duplicate_groups ≠ [] := by
  decide

/-- C2 counterexample: `get_score_distribution` rounds the median to one
decimal, so on the single card with importance 1 and difficulty 2 (score 4/3)
the returned median is 13/10, not the exact middle element 4/3 of the
score-sorted list that the claim demands. -/
theorem get_score_distribution_median_not_exact :
    (get_score_distribution
      [⟨"m", CardFormat.QA, some "q", some "ans", none, 1, 2, 0,
        CardStatus.INCLUDED⟩]).median ≠
      medianOfSorted (sortedScores
        [⟨"m", CardFormat.QA, some "q", some "ans", none, 1, 2, 0,
          CardStatus.INCLUDED⟩]) ∧
    medianOfSorted (sortedScores
      [⟨"m", CardFormat.QA, some "q", some "ans", none, 1, 2, 0,
        CardStatus.INCLUDED⟩]) = 4 / 3 ∧
    (get_score_distribution
      [⟨"m", CardFormat.QA, some "q", some "ans", none, 1, 2, 0,
        CardStatus.INCLUDED⟩]).median = 13 / 10 := by
  have hs : sortedScores
      [⟨"m", CardFormat.QA, some "q", some "ans", none, 1, 2, 0,
        CardStatus.INCLUDED⟩] = [4 / 3] := by
    rw [sortedScores]
    rw [show ([⟨"m", CardFormat.QA, some "q", some "ans", none, 1, 2, 0,
      CardStatus.INCLUDED⟩] : List Card).map compute_card_score = [4 / 3] by
        rw [List.map_cons, List.map_nil]
        norm_num [compute_card_score]]
    exact List.mergeSort_singleton _
  refine ⟨?_, ?_, ?_⟩
  · rw [hs]
    rw [show get_score_distribution
        [⟨"m", CardFormat.QA, some "q", some "ans", none, 1, 2, 0,
          CardStatus.INCLUDED⟩] =
        ⟨pyRound1 (pyListMin (sortedScores _)), pyRound1 (pyListMax (sortedScores _)),
          pyRound1 ((sortedScores _).sum / ((sortedScores _).length : ℚ)),
          pyRound1 (if (sortedScores _).length % 2 = 1 then
              (sortedScores _).getD ((sortedScores _).length / 2) 0
            else ((sortedScores _).getD ((sortedScores _).length / 2 - 1) 0 +
              (sortedScores _).getD ((sortedScores _).length / 2) 0) / 2),
          (sortedScores _).length, _⟩ from rfl]
    rw [hs]
    norm_num [medianOfSorted, pyRound1, pyRoundHalfEven]
  · rw [hs]
    norm_num [medianOfSorted]
  · rw [show get_score_distribution
        [⟨"m", CardFormat.QA, some "q", some "ans", none, 1, 2, 0,
          CardStatus.INCLUDED⟩] =
        ⟨pyRound1 (pyListMin (sortedScores _)), pyRound1 (pyListMax (sortedScores _)),
          pyRound1 ((sortedScores _).sum / ((sortedScores _).length : ℚ)),
          pyRound1 (if (sortedScores _).length % 2 = 1 then
              (sortedScores _).getD ((sortedScores _).length / 2) 0
            else ((sortedScores _).getD ((sortedScores _).length / 2 - 1) 0 +
              (sortedScores _).getD ((sortedScores _).length / 2) 0) / 2),
          (sortedScores _).length, _⟩ from rfl]
    rw [hs]
    norm_num [pyRound1, pyRoundHalfEven]

/-- C2 (amended): on non-empty input the median field is the spec's exact
median formula applied to the score-sorted list and then rounded to one
decimal (Python `round(x, 1)`), with `total` the number of cards; on empty
input every numeric field is 0 and the buckets are empty, with no error
path. -/
theorem get_score_distribution_spec (cards : List Card) :
    (cards ≠ [] →
      (get_score_distribution cards).median =
        pyRound1 (medianOfSorted (sortedScores cards)) ∧
      (get_score_distribution cards).total = cards.length) ∧
    (cards = [] →
      get_score_distribution cards = ⟨0, 0, 0, 0, 0, []⟩) := by
  refine ⟨?_, ?_⟩
  · intro hne
    have hne2 : ¬(cards.isEmpty = true) := by simpa using hne
    constructor
    · rw [get_score_distribution, if_neg hne2]
      rfl
    · rw [get_score_distribution, if_neg hne2]
      show (sortedScores cards).length = cards.length
      rw [sortedScores, List.length_mergeSort, List.length_map]
  · intro he
    subst he
    rfl

/-- Witness for C2 (amended) at one concrete card of score 4/3. -/
theorem get_score_distribution_spec_witness :
    (get_score_distribution
      [⟨"m2", CardFormat.QA, some "q", some "ans", none, 1, 2, 0,
        CardStatus.INCLUDED⟩]).median =
      pyRound1 (medianOfSorted (sortedScores
        [⟨"m2", CardFormat.QA, some "q", some "ans", none, 1, 2, 0,
          CardStatus.INCLUDED⟩])) ∧
    (get_score_distribution
      [⟨"m2", CardFormat.QA, some "q", some "ans", none, 1, 2, 0,
        CardStatus.INCLUDED⟩]).total =
      ([⟨"m2", CardFormat.QA, some "q", some "ans", none, 1, 2, 0,
        CardStatus.INCLUDED⟩] : List Card).length :=
  (get_score_distribution_spec
    [⟨"m2", CardFormat.QA, some "q", some "ans", none, 1, 2, 0,
      CardStatus.INCLUDED⟩]).1 (by decide)

/-- Distance from the empty string: the length of the other string. -/
theorem levSpec_nil_left (t : List Char) : levSpec [] t = t.length := by
  simp [levSpec]

/-- Distance to the empty string: the length of the other string. -/
theorem levSpec_nil_right (s : List Char) : levSpec s [] = s.length := by
  cases s <;> simp [levSpec]

/-- Head-unfolding of the reference Levenshtein recursion. -/
theorem levSpec_cons_cons (c1 c2 : Char) (s1 s2 : List Char) :
    levSpec (c1 :: s1) (c2 :: s2) =
      min (levSpec s1 (c2 :: s2) + 1)
        (min (levSpec (c1 :: s1) s2 + 1) (levSpec s1 s2 + (if c1 = c2 then 0 else 1))) := by
  rw [levSpec]

set_option maxHeartbeats 2000000 in
/-- The reference Levenshtein distance also satisfies the recurrence on the
last characters, which is the cell update rule of the dynamic-programming
grid (induction on the total length). -/
theorem levSpec_snoc_aux : ∀ (n : ℕ) (u v : List Char) (a b : Char),
    u.length + v.length ≤ n →
    levSpec (u ++ [a]) (v ++ [b]) =
      min (levSpec u (v ++ [b]) + 1)
        (min (levSpec (u ++ [a]) v + 1)
          (levSpec u v + (if a = b then 0 else 1))) := by
  intro n
  induction n with
  | zero =>
    intro u v a b h
    have hu : u = [] := List.eq_nil_of_length_eq_zero (by omega)
    have hv : v = [] := List.eq_nil_of_length_eq_zero (by omega)
    subst hu
    subst hv
    simp only [List.nil_append]
    rw [levSpec_cons_cons]
  | succ n ih =>
    intro u v a b h
    cases u with
    | nil =>
      cases v with
      | nil =>
        simp only [List.nil_append]
        rw [levSpec_cons_cons]
      | cons y v2 =>
        have h1 := ih [] v2 a b (by simp at h ⊢; omega)
        simp only [List.nil_append, List.cons_append] at h1 ⊢
        rw [levSpec_cons_cons a y, levSpec_cons_cons a y, h1]
        clear h1 h ih
        simp only [levSpec_nil_left, levSpec_nil_right, List.length_cons,
          List.length_append, List.length_nil]
        generalize (if a = b then (0 : ℕ) else 1) = c1
        generalize (if a = y then (0 : ℕ) else 1) = c2
        generalize levSpec [a] v2 = t1
        apply le_antisymm <;> simp only [le_min_iff, min_le_iff] <;> omega
    | cons x u2 =>
      cases v with
      | nil =>
        have h2 := ih u2 [] a b (by simp at h ⊢; omega)
        simp only [List.nil_append, List.cons_append] at h2 ⊢
        rw [levSpec_cons_cons x b, levSpec_cons_cons x b, h2]
        clear h2 h ih
        simp only [levSpec_nil_left, levSpec_nil_right, List.length_cons,
          List.length_append, List.length_nil]
        generalize (if a = b then (0 : ℕ) else 1) = c1
        generalize (if x = b then (0 : ℕ) else 1) = c2
        generalize levSpec u2 [b] = t1
        apply le_antisymm <;> simp only [le_min_iff, min_le_iff] <;> omega
      | cons y v2 =>
        have h1 := ih u2 (y :: v2) a b (by simp at h ⊢; omega)
        have h2 := ih (x :: u2) v2 a b (by simp at h ⊢; omega)
        have h3 := ih u2 v2 a b (by simp at h ⊢; omega)
        simp only [List.cons_append] at h1 h2 h3 ⊢
        rw [levSpec_cons_cons x y, levSpec_cons_cons x y, levSpec_cons_cons x y,
          levSpec_cons_cons x y, h1, h2, h3]
        clear h1 h2 h3 h ih
        generalize (if a = b then (0 : ℕ) else 1) = c1
        generalize (if x = y then (0 : ℕ) else 1) = c2
        generalize levSpec u2 (y :: (v2 ++ [b])) = p1
        generalize levSpec (u2 ++ [a]) (y :: v2) = p2
        generalize levSpec u2 (y :: v2) = p3
        generalize levSpec (x :: u2) (v2 ++ [b]) = q1
        generalize levSpec (x :: (u2 ++ [a])) v2 = q2
        generalize levSpec (x :: u2) v2 = q3
        generalize levSpec u2 (v2 ++ [b]) = r1
        generalize levSpec (u2 ++ [a]) v2 = r2
        generalize levSpec u2 v2 = r3
        apply le_antisymm <;> simp only [le_min_iff, min_le_iff] <;> omega

/-- Last-character recurrence of the reference Levenshtein distance. -/
theorem levSpec_snoc (u v : List Char) (a b : Char) :
    levSpec (u ++ [a]) (v ++ [b]) =
      min (levSpec u (v ++ [b]) + 1)
        (min (levSpec (u ++ [a]) v + 1)
          (levSpec u v + (if a = b then 0 else 1))) :=
  levSpec_snoc_aux (u.length + v.length) u v a b le_rfl

/-- Symmetry of the reference Levenshtein distance (induction form). -/
theorem levSpec_comm_aux : ∀ (n : ℕ) (u v : List Char), u.length + v.length ≤ n →
    levSpec u v = levSpec v u := by
  intro n
  induction n with
  | zero =>
    intro u v h
    have hu : u = [] := List.eq_nil_of_length_eq_zero (by omega)
    have hv : v = [] := List.eq_nil_of_length_eq_zero (by omega)
    subst hu
    subst hv
    rfl
  | succ n ih =>
    intro u v h
    cases u with
    | nil => rw [levSpec_nil_left, levSpec_nil_right]
    | cons x u2 =>
      cases v with
      | nil => rw [levSpec_nil_left, levSpec_nil_right]
      | cons y v2 =>
        have h1 := ih u2 (y :: v2) (by simp at h ⊢; omega)
        have h2 := ih (x :: u2) v2 (by simp at h ⊢; omega)
        have h3 := ih u2 v2 (by simp at h ⊢; omega)
        rw [levSpec_cons_cons x y, levSpec_cons_cons y x, h1, h2, h3]
        have hxy : (if x = y then (0 : ℕ) else 1) = (if y = x then (0 : ℕ) else 1) := by
          by_cases hx : x = y
          · rw [if_pos hx, if_pos hx.symm]
          · rw [if_neg hx, if_neg (fun hy => hx hy.symm)]
        rw [hxy]
        clear h1 h2 h3 h ih hxy
        generalize (if y = x then (0 : ℕ) else 1) = c1
        generalize levSpec (y :: v2) u2 = t1
        generalize levSpec v2 (x :: u2) = t2
        generalize levSpec v2 u2 = t3
        apply le_antisymm <;> simp only [le_min_iff, min_le_iff] <;> omega

/-- The reference Levenshtein distance is symmetric. -/
theorem levSpec_comm (u v : List Char) : levSpec u v = levSpec v u :=
  levSpec_comm_aux (u.length + v.length) u v le_rfl

/-- The distance from a string to itself is zero. -/
theorem levSpec_self : ∀ s : List Char, levSpec s s = 0 := by
  intro s
  induction s with
  | nil => rw [levSpec_nil_left, List.length_nil]
  | cons c cs ih =>
    rw [levSpec_cons_cons, if_pos rfl]
    omega

/-- Loop invariant of the inner DP loop: fed the previous grid row (the
distances from `pre`) and the current row's first entry, it produces exactly
the rest of the next grid row (the distances from `pre` extended by the
current character). -/
theorem levInner_spec (c1 : Char) (pre : List Char) :
    ∀ (s2r base : List Char),
      levInner c1 s2r (levSpec pre base :: specRowTail pre base s2r)
        (levSpec (pre ++ [c1]) base) = specRowTail (pre ++ [c1]) base s2r := by
  intro s2r
  induction s2r with
  | nil =>
    intro base
    simp [specRowTail, levInner]
  | cons c2 rest ih =>
    intro base
    rw [specRowTail, specRowTail, levInner]
    have hv : min (levSpec pre (base ++ [c2]) + 1)
        (min (levSpec (pre ++ [c1]) base + 1)
          (levSpec pre base + (if c1 = c2 then 0 else 1))) =
        levSpec (pre ++ [c1]) (base ++ [c2]) :=
      (levSpec_snoc pre base c1 c2).symm
    rw [hv, ih (base ++ [c2])]

/-- Loop invariant of the outer DP loop: starting from the row of distances
from `pre`, consuming the remaining first-string characters lands on the row
of distances from the whole first string. -/
theorem levOuter_spec (s2 : List Char) :
    ∀ (s1r pre : List Char),
      levOuter s1r s2 (levSpec pre [] :: specRowTail pre [] s2) pre.length =
        levSpec (pre ++ s1r) [] :: specRowTail (pre ++ s1r) [] s2 := by
  intro s1r
  induction s1r with
  | nil =>
    intro pre
    rw [levOuter, List.append_nil]
  | cons c1 rest ih =>
    intro pre
    rw [levOuter]
    have hlen : pre.length + 1 = levSpec (pre ++ [c1]) [] := by
      rw [levSpec_nil_right, List.length_append, List.length_cons, List.length_nil]
    rw [hlen, levInner_spec c1 pre s2 []]
    have hthis := ih (pre ++ [c1])
    rw [show (pre ++ [c1]).length = levSpec (pre ++ [c1]) [] from by
      rw [levSpec_nil_right]] at hthis
    rw [hthis, List.append_assoc, List.singleton_append]

/-- The zeroth grid row (distances from the empty prefix) is an arithmetic
range, matching the `range(len(s2) + 1)` initialisation of the source. -/
theorem specRowTail_nil (s2 : List Char) :
    ∀ base : List Char, specRowTail [] base s2 = List.range' (base.length + 1) s2.length := by
  induction s2 with
  | nil =>
    intro base
    rw [specRowTail, List.length_nil, List.range']
  | cons c2 rest ih =>
    intro base
    rw [specRowTail, List.length_cons, List.range'_succ, ih (base ++ [c2]),
      levSpec_nil_left, List.length_append, List.length_cons, List.length_nil]

/-- The last entry of a grid row is the distance to the whole second
string. -/
theorem row_getLastD (s1 : List Char) :
    ∀ (s2r base : List Char),
      (levSpec s1 base :: specRowTail s1 base s2r).getLastD 0 =
        levSpec s1 (base ++ s2r) := by
  intro s2r
  induction s2r with
  | nil =>
    intro base
    rw [specRowTail, List.getLastD_cons, List.append_nil]
    rfl
  | cons c2 rest ih =>
    intro base
    rw [specRowTail, List.getLastD_cons]
    have := ih (base ++ [c2])
    rw [List.getLastD_cons] at this ⊢
    rw [this, List.append_assoc]
    rfl

/-- The dynamic program computes the reference Levenshtein distance. -/
theorem levCore_spec (s1 s2 : List Char) : levCore s1 s2 = levSpec s1 s2 := by
  rw [levCore]
  by_cases h2 : s2.length = 0
  · rw [if_pos h2, List.eq_nil_of_length_eq_zero h2, levSpec_nil_right]
  · rw [if_neg h2]
    have hinit : List.range (s2.length + 1) = levSpec [] [] :: specRowTail [] [] s2 := by
      rw [specRowTail_nil s2 [], List.length_nil, levSpec_nil_left, List.length_nil,
        List.range_eq_range']
      rw [List.range'_succ]
    rw [hinit]
    have h0 : (0 : ℕ) = ([] : List Char).length := rfl
    rw [h0, levOuter_spec s2 s1 [], List.nil_append]
    exact row_getLastD s1 s2 []

/-- The source's `levenshtein_distance` (with its argument-swapping wrapper)
equals the reference Levenshtein distance with unit-cost insertions,
deletions and substitutions. -/
theorem levenshtein_distance_eq_levSpec (s1 s2 : List Char) :
    levenshtein_distance s1 s2 = levSpec s1 s2 := by
  rw [levenshtein_distance]
  by_cases h : s1.length < s2.length
  · rw [if_pos h, levCore_spec, levSpec_comm]
  · rw [if_neg h, levCore_spec]

/-- C7: `similarity_ratio` returns 1 on two empty strings, 0 when exactly one
is empty, and otherwise `1 - d / max(len a, len b)` where d is the Levenshtein
distance with unit-cost insertions, deletions and substitutions; in particular
a string compared with itself scores 1. -/
theorem similarity_ratio_spec :
    similarity_ratio "" "" = 1 ∧
    (∀ a : String, a ≠ "" → similarity_ratio a "" = 0 ∧ similarity_ratio "" a = 0) ∧
    (∀ a b : String, a ≠ "" → b ≠ "" →
      similarity_ratio a b =
        1 - (levSpec a.toList b.toList : ℚ) / ((max a.length b.length : ℕ) : ℚ)) ∧
    (∀ s : String, similarity_ratio s s = 1) := by
  have hform : ∀ a b : String, a ≠ "" → b ≠ "" →
      similarity_ratio a b =
        1 - (levSpec a.toList b.toList : ℚ) / ((max a.length b.length : ℕ) : ℚ) := by
    intro a b ha hb
    rw [similarity_ratio, if_neg (fun hc => ha hc.1),
      if_neg (fun hc => Or.elim hc ha hb), levenshtein_distance_eq_levSpec]
  refine ⟨?_, ?_, hform, ?_⟩
  · rw [similarity_ratio, if_pos ⟨rfl, rfl⟩]
  · intro a ha
    constructor
    · rw [similarity_ratio, if_neg (fun hc => ha hc.1),
        if_pos (Or.inr rfl)]
    · rw [similarity_ratio, if_neg (fun hc => ha hc.2),
        if_pos (Or.inl rfl)]
  · intro s
    by_cases hs : s = ""
    · rw [hs, similarity_ratio, if_pos ⟨rfl, rfl⟩]
    · rw [hform s s hs hs, levSpec_self, Nat.cast_zero, zero_div, sub_zero]

/-- Witness for C7 at concrete strings. -/
theorem similarity_ratio_spec_witness :
    ("ab" : String) ≠ "" ∧
    similarity_ratio "ab" "" = 0 ∧
    similarity_ratio "ab" "xb" =
      1 - (levSpec ("ab" : String).toList ("xb" : String).toList : ℚ) /
        ((max ("ab" : String).length ("xb" : String).length : ℕ) : ℚ) ∧
    similarity_ratio "ab" "ab" = 1 :=
  ⟨by decide, (similarity_ratio_spec.2.1 "ab" (by decide)).1,
    similarity_ratio_spec.2.2.1 "ab" "xb" (by decide) (by decide),
    similarity_ratio_spec.2.2.2 "ab"⟩
